import Mathlib

/-!
Shallow embedding of the MegaStore catalog search engine
(`search_system/src/main.rs`) and proofs about its specification.

Modelling conventions:
* Rust `String` values are embedded as `List Char` (`Str`); `str` converts a
  Lean string literal to that representation.
* `to_lowercase()` is modelled as character-wise `Char.toLower`.
* `HashMap<K, HashSet<usize>>` maps are embedded as total functions
  `K → List Nat` whose default value is `[]`; a hash-set is a duplicate-free
  list and `hsInsert` is `HashSet::insert` (append when absent).  A key is
  present in the Rust map exactly when its list is nonempty, because the code
  only ever creates an entry by immediately inserting an element into it.
* `BTreeMap<String, Vec<usize>>` is embedded as an association list ordered
  by the lexicographic order `lexLt` on keys; `btInsert` is
  `entry(key).or_default().push(id)`.
* Rust's stable `sort_by(|a, b| b.1.cmp(&a.1))` is embedded as Mathlib's
  stable `insertionSort` with the corresponding relation `degRel`.
* The regex `[^\w]+` split of `tokenize` is embedded by `splitNonWord`,
  which cuts the character list at each maximal run of non-word characters,
  producing the same fragments (including empty boundary fragments) that
  `Regex::split` yields; `\w` (Unicode word character) is modelled by
  `Char.isAlphanum || · = '_'`.
* Methods taking `&mut self` become state-passing functions
  `Catalog → … → Catalog`; `Catalog::add_product` returns `()` in the
  source, which `add_product_ret` records explicitly.
-/

namespace MegaStore

/-- Embedded Rust strings: a list of characters. -/
abbrev Str := List Char

/-- Conversion from a Lean string literal to the embedded representation. -/
def str (s : String) : Str := s.data

/-- Model of `to_lowercase()`: character-wise lowering. -/
def lowerStr (s : Str) : Str := s.map Char.toLower

/-- Model of the regex class `\w` (word character): alphanumeric or underscore. -/
def isWordChar (c : Char) : Bool := c.isAlphanum || c = '_'

/-- Model of `Regex::new(r"[^\w]+").split(s)`: the fragments of `s` lying
between maximal runs of non-word characters, in order, including the empty
boundary fragments that the regex split produces.  A word character extends
the current fragment; a non-word character ends it, and a whole run of
non-word characters (recognized by looking at the next character) produces a
single cut. -/
def splitNonWord : Str → List Str
  | [] => [[]]
  | [c] => if isWordChar c then [[c]] else [[], []]
  | c :: d :: rest =>
    if isWordChar c then
      (c :: (splitNonWord (d :: rest)).headD []) :: (splitNonWord (d :: rest)).tail
    else if isWordChar d then
      [] :: splitNonWord (d :: rest)
    else
      splitNonWord (d :: rest)

/-- Specification-side description of the tokenizer: the maximal runs of word
characters of the input, in left-to-right order.  Used to state that the
source tokenizer implements exactly this. -/
def wordRuns : Str → List Str
  | [] => []
  | c :: rest =>
    if isWordChar c then
      (c :: rest.takeWhile isWordChar) :: wordRuns (rest.dropWhile isWordChar)
    else
      wordRuns rest
termination_by s => s.length
decreasing_by
  · simp only [List.length_cons]
    exact Nat.lt_succ_of_le ((List.dropWhile_sublist _).length_le)
  · simp only [List.length_cons]; omega

/-- Model of `fn tokenize`: lower-case, split on `[^\w]+`, drop empty
fragments. -/
def tokenize (s : Str) : List Str :=
  (splitNonWord (lowerStr s)).filter (fun t => !t.isEmpty)

/-- Model of `struct Product`.  `description` is never read by the core. -/
structure Product where
  id : Nat
  name : Str
  brand : Str
  category : Str
  description : Option Str
deriving DecidableEq

/-- Tokens contributed by a product to the inverted index
(`tokenize(name) ++ tokenize(brand) ++ tokenize(category)`). -/
def tokensOf (p : Product) : List Str :=
  tokenize p.name ++ tokenize p.brand ++ tokenize p.category

/-- Model of `HashSet::insert`: add the element when absent. -/
def hsInsert (x : Nat) (s : List Nat) : List Nat :=
  if x ∈ s then s else s ++ [x]

/-- Model of `HashIndex`: token → set of product ids (default empty). -/
abbrev HashIndex := Str → List Nat

/-- Model of `HashIndex::index_product`: insert the product id under every
token of its name, brand and category. -/
def HashIndex.index_product (m : HashIndex) (p : Product) : HashIndex :=
  (tokensOf p).foldl (fun m t => Function.update m t (hsInsert p.id (m t))) m

/-- Model of the intersection loop of `search_tokens_and`: starting from the
first candidate set, repeatedly intersect with the next set, stopping early
once the running intersection is empty. -/
def interAll (r : List Nat) : List (List Nat) → List Nat
  | [] => r
  | s :: ss =>
    let r2 := r.filter (fun x => decide (x ∈ s))
    if r2.isEmpty then r2 else interAll r2 ss

/-- Model of `HashIndex::search_tokens_and`.  Note that
`filter_map(|t| self.index.get(t))` silently drops query tokens that have no
entry in the index (an entry is present exactly when its set is nonempty). -/
def HashIndex.search_tokens_and (m : HashIndex) (tokens : List Str) : List Nat :=
  if tokens.isEmpty then []
  else
    match (tokens.map m).filter (fun s => !s.isEmpty) with
    | [] => []
    | s0 :: rest => interAll s0 rest

/-- Model of `RecGraph`: adjacency, id → neighbor set (default empty). -/
abbrev RecGraph := Nat → List Nat

/-- Model of `RecGraph::add_edge`: no-op on a self edge, otherwise insert each
endpoint into the other's neighbor set. -/
def RecGraph.add_edge (g : RecGraph) (a b : Nat) : RecGraph :=
  if a = b then g
  else
    let g1 := Function.update g a (hsInsert b (g a))
    Function.update g1 b (hsInsert a (g1 b))

/-- Sorting relation of `recommend`: `x` may precede `y` when `x`'s recorded
degree is at least `y`'s (Rust comparator `b.1.cmp(&a.1)`, descending). -/
def degRel (x y : Nat × Nat) : Prop := y.2 ≤ x.2

instance : DecidableRel degRel := fun x y => Nat.decLe y.2 x.2

instance : IsTotal (Nat × Nat) degRel := ⟨fun x y => Nat.le_total y.2 x.2⟩

instance : IsTrans (Nat × Nat) degRel := ⟨fun _ _ _ h1 h2 => Nat.le_trans h2 h1⟩

/-- Model of `RecGraph::recommend`: pair each neighbor with its degree,
stable-sort descending by degree, keep the ids, truncate to `limit`. -/
def RecGraph.recommend (g : RecGraph) (product_id limit : Nat) : List Nat :=
  let neighbors := g product_id
  let scored := neighbors.map (fun nid => (nid, (g nid).length))
  ((scored.insertionSort degRel).map Prod.fst).take limit

/-- Lexicographic strict order on embedded strings (the `Ord` used by
`BTreeMap<String, _>`). -/
def lexLt : Str → Str → Bool
  | [], [] => false
  | [], _ :: _ => true
  | _ :: _, [] => false
  | a :: as, b :: bs => decide (a < b) || (decide (a = b) && lexLt as bs)

/-- Model of `NameBTree`: an association list of (normalized name, id list)
entries kept sorted by `lexLt` on the keys. -/
abbrev NameBTree := List (Str × List Nat)

/-- Ordered-insert into the association list modelling
`tree.entry(key).or_default().push(id)`. -/
def btInsert (k : Str) (id : Nat) : NameBTree → NameBTree
  | [] => [(k, [id])]
  | (k2, v) :: rest =>
    if k = k2 then (k2, v ++ [id]) :: rest
    else if lexLt k k2 then (k, [id]) :: (k2, v) :: rest
    else (k2, v) :: btInsert k id rest

/-- Model of `NameBTree::insert`: lower-case the name, then append the id to
that key's list. -/
def NameBTree.insert (t : NameBTree) (name : Str) (id : Nat) : NameBTree :=
  btInsert (lowerStr name) id t

/-- Model of the inner loop of `NameBTree::search_prefix` over one entry's id
list: `out.push(*id); if out.len() >= limit { return out; }`.  The returned
flag records an early `return`. -/
def addIds (limit : Nat) : List Nat → List Nat → List Nat × Bool
  | out, [] => (out, false)
  | out, id :: v =>
    let out2 := out ++ [id]
    if limit ≤ out2.length then (out2, true) else addIds limit out2 v

/-- Model of the outer loop of `NameBTree::search_prefix` over the entries of
`range(prefix..)`: stop at the first key that does not start with the
(lowered) search string, otherwise collect ids with `addIds`. -/
def spLoop (lp : Str) (limit : Nat) : NameBTree → List Nat → List Nat
  | [], out => out
  | (k, v) :: rest, out =>
    if lp.isPrefixOf k then
      let r := addIds limit out v
      if r.2 then r.1 else spLoop lp limit rest r.1
    else out

/-- Model of `NameBTree::search_prefix` (named `searchPfx` here): lower-case
the search string, restrict the sorted entry list to keys `≥` it
(`range(prefix..)`), then run the scanning loop. -/
def NameBTree.searchPfx (t : NameBTree) (pfx : Str) (limit : Nat) : List Nat :=
  let lp := lowerStr pfx
  spLoop lp limit (t.filter (fun e => !(lexLt e.1 lp))) []

/-- All ids stored under keys starting with `lp`, in tree (= key) order, each
key's list in insertion order: the canonical ordered answer that
`searchPfx` truncates. -/
def NameBTree.matchedIds (t : NameBTree) (lp : Str) : List Nat :=
  ((t.filter (fun e => lp.isPrefixOf e.1)).map Prod.snd).flatten

/-- Model of `struct Catalog`. -/
structure Catalog where
  products : Nat → Option Product
  next_id : Nat
  hash_index : HashIndex
  rec_graph : RecGraph
  name_tree : NameBTree

/-- Model of `Catalog::new`. -/
def Catalog.new : Catalog :=
  { products := fun _ => none
    next_id := 1
    hash_index := fun _ => []
    rec_graph := fun _ => []
    name_tree := [] }

/-- Model of `Catalog::add_product`: overwrite the candidate's id with
`next_id`, bump the counter, index the finalized record, store it. -/
def Catalog.add_product (c : Catalog) (p : Product) : Catalog :=
  let p2 := { p with id := c.next_id }
  { products := Function.update c.products p2.id (some p2)
    next_id := c.next_id + 1
    hash_index := c.hash_index.index_product p2
    rec_graph := c.rec_graph
    name_tree := c.name_tree.insert p2.name p2.id }

/-- The Rust `fn add_product(&mut self, mut p: Product)` returns `()`: this
definition records the new state together with that (unit) return value. -/
def Catalog.add_product_ret (c : Catalog) (p : Product) : Catalog × Unit :=
  (c.add_product p, ())

/-- Model of `Catalog::add_recommendation_edge`. -/
def Catalog.add_recommendation_edge (c : Catalog) (a b : Nat) : Catalog :=
  { c with rec_graph := c.rec_graph.add_edge a b }

/-- Ids returned by the inverted index for a query (first half of
`Catalog::search_tokens`). -/
def Catalog.searchTokenIds (c : Catalog) (query : Str) : List Nat :=
  c.hash_index.search_tokens_and (tokenize query)

/-- Model of `Catalog::search_tokens`: resolve the ids returned by the
inverted index, dropping any id that does not resolve. -/
def Catalog.search_tokens (c : Catalog) (query : Str) : List Product :=
  (c.searchTokenIds query).filterMap c.products

/-- Ids returned by the ordered name index for a search (first half of
`Catalog::search_prefix_ordered`). -/
def Catalog.searchPfxIds (c : Catalog) (pfx : Str) (limit : Nat) : List Nat :=
  c.name_tree.searchPfx pfx limit

/-- Model of `Catalog::search_prefix_ordered` (named `searchPfxOrdered`
here): resolve the ids returned by the name index, preserving their order. -/
def Catalog.searchPfxOrdered (c : Catalog) (pfx : Str) (limit : Nat) : List Product :=
  (c.searchPfxIds pfx limit).filterMap c.products

/-- Model of `Catalog::recommend_for`: resolve the ids returned by the
recommendation graph, preserving their order. -/
def Catalog.recommend_for (c : Catalog) (product_id limit : Nat) : List Product :=
  (c.rec_graph.recommend product_id limit).filterMap c.products

/-- Fold a batch of `add_product` calls, in order. -/
def addAll (ps : List Product) (c : Catalog) : Catalog :=
  ps.foldl Catalog.add_product c

/-- Catalog states reachable from `Catalog::new` by the two write
operations. -/
inductive Reachable : Catalog → Prop where
  | new : Reachable Catalog.new
  | add (p : Product) {c : Catalog} : Reachable c → Reachable (c.add_product p)
  | edge (a b : Nat) {c : Catalog} :
      Reachable c → Reachable (c.add_recommendation_edge a b)

/-- Invariants of reachable catalog states. -/
structure Inv (c : Catalog) : Prop where
  next_pos : 1 ≤ c.next_id
  prod_id : ∀ i p, c.products i = some p → p.id = i ∧ 1 ≤ i ∧ i < c.next_id
  hash_sound : ∀ t i, i ∈ c.hash_index t →
    ∃ p, c.products i = some p ∧ t ∈ tokensOf p
  hash_complete : ∀ i p, c.products i = some p →
    ∀ t ∈ tokensOf p, i ∈ c.hash_index t
  tree_sorted : c.name_tree.Pairwise (fun e f => lexLt e.1 f.1 = true)
  tree_sound : ∀ e ∈ c.name_tree, ∀ i ∈ e.2,
    ∃ p, c.products i = some p ∧ lowerStr p.name = e.1
  tree_inc : ∀ e ∈ c.name_tree, e.2.Pairwise (· < ·)

/-- Ordering of search results by normalized name, ties by id (= insertion
order). -/
def nameOrd (p q : Product) : Prop :=
  lexLt (lowerStr p.name) (lowerStr q.name) = true ∨
    (lowerStr p.name = lowerStr q.name ∧ p.id < q.id)

/-- Sample candidate product (caller-supplied id 37, to be overwritten). -/
def prodA : Product :=
  { id := 37, name := str "dell", brand := str "dell", category := str "dell",
    description := none }

/-- Second sample candidate product. -/
def prodB : Product :=
  { id := 99, name := str "abc", brand := str "b", category := str "c",
    description := none }

/-- Catalog holding `prodA` (stored with id 1). -/
def catA : Catalog := Catalog.new.add_product prodA

/-- Catalog holding `prodA` (id 1) and `prodB` (id 2). -/
def catAB : Catalog := catA.add_product prodB

/-- Catalog with a recommendation edge between two ids absent from the
store. -/
def catEdge : Catalog := catA.add_recommendation_edge 5 7

/-- The record actually stored for `prodA` (assigned id 1). -/
def prodA1 : Product := { prodA with id := 1 }

/-- The record actually stored for `prodB` when added second (assigned id 2). -/
def prodB2 : Product := { prodB with id := 2 }

/-- The empty recommendation graph (`RecGraph::new`). -/
def emptyGraph : RecGraph := fun _ => []

/-! ### Tokenizer lemmas -/

lemma wordRuns_nil : wordRuns [] = [] := by rw [wordRuns]

lemma wordRuns_cons_word {c : Char} (rest : Str) (h : isWordChar c = true) :
    wordRuns (c :: rest) =
      (c :: rest.takeWhile isWordChar) :: wordRuns (rest.dropWhile isWordChar) := by
  rw [wordRuns]; simp [h]

lemma wordRuns_cons_sep {c : Char} (rest : Str) (h : isWordChar c = false) :
    wordRuns (c :: rest) = wordRuns rest := by
  rw [wordRuns]; simp [h]

lemma splitNonWord_one_word {c : Char} (h : isWordChar c = true) :
    splitNonWord [c] = [[c]] := by simp [splitNonWord, h]

lemma splitNonWord_one_sep {c : Char} (h : isWordChar c = false) :
    splitNonWord [c] = [[], []] := by simp [splitNonWord, h]

lemma splitNonWord_two_word {c d : Char} (rest : Str) (h : isWordChar c = true) :
    splitNonWord (c :: d :: rest) =
      (c :: (splitNonWord (d :: rest)).headD []) :: (splitNonWord (d :: rest)).tail := by
  simp [splitNonWord, h]

lemma splitNonWord_two_sepword {c d : Char} (rest : Str) (h : isWordChar c = false)
    (hd : isWordChar d = true) :
    splitNonWord (c :: d :: rest) = [] :: splitNonWord (d :: rest) := by
  simp [splitNonWord, h, hd]

lemma splitNonWord_two_sepsep {c d : Char} (rest : Str) (h : isWordChar c = false)
    (hd : isWordChar d = false) :
    splitNonWord (c :: d :: rest) = splitNonWord (d :: rest) := by
  simp [splitNonWord, h, hd]

lemma splitNonWord_headD (s : Str) :
    (splitNonWord s).headD [] = s.takeWhile isWordChar := by
  induction s with
  | nil => rfl
  | cons c rest ih =>
    cases h : isWordChar c with
    | true =>
      cases rest with
      | nil => simp [splitNonWord_one_word h, List.takeWhile_cons, h]
      | cons d rest' =>
        rw [splitNonWord_two_word rest' h, List.takeWhile_cons, if_pos h]
        simpa using ih
    | false =>
      cases rest with
      | nil => simp [splitNonWord_one_sep h, List.takeWhile_cons, h]
      | cons d rest' =>
        rw [List.takeWhile_cons, if_neg (by simp [h])]
        cases hd : isWordChar d with
        | true => rw [splitNonWord_two_sepword rest' h hd]; rfl
        | false =>
          rw [splitNonWord_two_sepsep rest' h hd, ih, List.takeWhile_cons,
            if_neg (by simp [hd])]

/-- Joint specification of the regex split: filtering out the empty fragments
yields exactly the maximal word-character runs, and the same holds for the
tail once the leading run is removed. -/
lemma splitNonWord_spec : ∀ s : Str,
    (splitNonWord s).filter (fun t => !t.isEmpty) = wordRuns s ∧
      (splitNonWord s).tail.filter (fun t => !t.isEmpty) =
        wordRuns (s.dropWhile isWordChar)
  | [] => by simp [splitNonWord, wordRuns_nil]
  | [c] => by
    cases h : isWordChar c with
    | true =>
      rw [splitNonWord_one_word h, wordRuns_cons_word [] h, List.dropWhile_cons,
        if_pos h]
      simp [wordRuns_nil]
    | false =>
      rw [splitNonWord_one_sep h, wordRuns_cons_sep [] h, List.dropWhile_cons,
        if_neg (by simp [h])]
      simp [wordRuns_nil, wordRuns_cons_sep [] h]
  | c :: d :: rest => by
    have ih := splitNonWord_spec (d :: rest)
    cases h : isWordChar c with
    | false =>
      have hdropc : (c :: d :: rest).dropWhile isWordChar = c :: d :: rest := by
        rw [List.dropWhile_cons, if_neg (by simp [h])]
      cases hd : isWordChar d with
      | false =>
        have hdropd : (d :: rest).dropWhile isWordChar = d :: rest := by
          rw [List.dropWhile_cons, if_neg (by simp [hd])]
        rw [splitNonWord_two_sepsep rest h hd, hdropc, wordRuns_cons_sep (d :: rest) h]
        refine ⟨ih.1, ?_⟩
        rw [ih.2, hdropd]
      | true =>
        rw [splitNonWord_two_sepword rest h hd, hdropc, wordRuns_cons_sep (d :: rest) h]
        constructor
        · rw [List.filter_cons]
          simp only [List.isEmpty_nil, Bool.not_true, Bool.false_eq_true, if_false]
          exact ih.1
        · rw [List.tail_cons]
          exact ih.1
    | true =>
      have hdrop : List.dropWhile isWordChar (c :: d :: rest) =
          List.dropWhile isWordChar (d :: rest) := by
        rw [List.dropWhile_cons, if_pos h]
      rw [splitNonWord_two_word rest h, splitNonWord_headD (d :: rest),
        wordRuns_cons_word (d :: rest) h, hdrop]
      constructor
      · rw [List.filter_cons]
        simp only [List.isEmpty_cons, Bool.not_false, if_true]
        rw [ih.2]
      · rw [List.tail_cons, ih.2]

/-- The tokenizer computes exactly the maximal word-character runs of the
lowered input. -/
lemma tokenize_eq_wordRuns (s : Str) : tokenize s = wordRuns (lowerStr s) :=
  (splitNonWord_spec (lowerStr s)).1

/-- Every maximal run is nonempty and made of word characters. -/
lemma wordRuns_wf : ∀ s : Str, ∀ t ∈ wordRuns s, t ≠ [] ∧ ∀ ch ∈ t, isWordChar ch = true
  | [] => by simp [wordRuns_nil]
  | c :: rest => by
    cases h : isWordChar c with
    | false =>
      rw [wordRuns_cons_sep rest h]
      exact wordRuns_wf rest
    | true =>
      rw [wordRuns_cons_word rest h]
      intro t ht
      rcases List.mem_cons.mp ht with rfl | ht
      · refine ⟨by simp, ?_⟩
        intro ch hch
        rcases List.mem_cons.mp hch with rfl | hch
        · exact h
        · exact List.mem_takeWhile_imp hch
      · exact wordRuns_wf (rest.dropWhile isWordChar) t ht
termination_by s => s.length
decreasing_by
  · simp only [List.length_cons]; omega
  · simp only [List.length_cons]
    exact Nat.lt_succ_of_le ((List.dropWhile_sublist _).length_le)

/-! ### Hash-set and inverted-index lemmas -/

lemma mem_hsInsert {x a : Nat} {s : List Nat} : x ∈ hsInsert a s ↔ x ∈ s ∨ x = a := by
  unfold hsInsert
  split
  · next h =>
    constructor
    · exact Or.inl
    · rintro (hx | rfl)
      · exact hx
      · exact h
  · simp

lemma mem_index_fold :
    ∀ (ts : List Str) (m : HashIndex) (i : Nat) (t : Str) (x : Nat),
      x ∈ (ts.foldl (fun m u => Function.update m u (hsInsert i (m u))) m) t ↔
        x ∈ m t ∨ (x = i ∧ t ∈ ts)
  | [], m, i, t, x => by simp
  | u :: ts, m, i, t, x => by
    rw [List.foldl_cons, mem_index_fold ts]
    by_cases htu : t = u
    · subst htu
      rw [Function.update_same, mem_hsInsert]
      simp only [List.mem_cons]
      tauto
    · rw [Function.update_noteq htu]
      simp only [List.mem_cons]
      tauto

lemma mem_index_product {m : HashIndex} {p : Product} {t : Str} {x : Nat} :
    x ∈ (m.index_product p) t ↔ x ∈ m t ∨ (x = p.id ∧ t ∈ tokensOf p) :=
  mem_index_fold (tokensOf p) m p.id t x

lemma mem_interAll : ∀ (ss : List (List Nat)) (r : List Nat) (x : Nat),
    x ∈ interAll r ss ↔ x ∈ r ∧ ∀ s ∈ ss, x ∈ s
  | [], r, x => by simp [interAll]
  | s :: ss, r, x => by
    simp only [interAll]
    by_cases he : (r.filter (fun y => decide (y ∈ s))).isEmpty
    · rw [if_pos he]
      have h2 : r.filter (fun y => decide (y ∈ s)) = [] := List.isEmpty_iff.mp he
      rw [h2]
      simp only [List.not_mem_nil, false_iff, not_and]
      intro hr hall
      have hx2 : x ∈ r.filter (fun y => decide (y ∈ s)) :=
        List.mem_filter.mpr ⟨hr, decide_eq_true (hall s (by simp))⟩
      rw [h2] at hx2
      exact absurd hx2 (List.not_mem_nil x)
    · rw [if_neg he, mem_interAll ss]
      simp only [List.mem_filter, decide_eq_true_eq, List.mem_cons]
      constructor
      · rintro ⟨⟨hr, hs⟩, hall⟩
        refine ⟨hr, ?_⟩
        rintro s' (rfl | hs')
        · exact hs
        · exact hall s' hs'
      · rintro ⟨hr, hall⟩
        exact ⟨⟨hr, hall s (Or.inl rfl)⟩, fun s' hs' => hall s' (Or.inr hs')⟩

lemma mem_search_tokens_and {m : HashIndex} {toks : List Str} {x : Nat} :
    x ∈ m.search_tokens_and toks ↔
      (∃ t ∈ toks, m t ≠ []) ∧ ∀ t ∈ toks, m t ≠ [] → x ∈ m t := by
  unfold HashIndex.search_tokens_and
  by_cases hT : toks.isEmpty
  · rw [if_pos hT]
    rw [List.isEmpty_iff.mp hT]
    simp
  · rw [if_neg hT]
    cases hsets : (toks.map m).filter (fun s => !s.isEmpty) with
    | nil =>
      have hall : ∀ t ∈ toks, m t = [] := by
        intro t ht
        have := List.filter_eq_nil_iff.mp hsets (m t) (List.mem_map.mpr ⟨t, ht, rfl⟩)
        simpa using this
      simp only [List.not_mem_nil, false_iff, not_and]
      rintro ⟨t, ht, hne⟩
      exact absurd (hall t ht) hne
    | cons s0 rest =>
      rw [mem_interAll]
      have hmem : ∀ s, s ∈ s0 :: rest ↔ ∃ t ∈ toks, m t = s ∧ s ≠ [] := by
        intro s
        rw [← hsets, List.mem_filter, List.mem_map]
        constructor
        · rintro ⟨⟨t, ht, rfl⟩, hne⟩
          exact ⟨t, ht, rfl, by simpa using hne⟩
        · rintro ⟨t, ht, rfl, hne⟩
          exact ⟨⟨t, ht, rfl⟩, by simpa using hne⟩
      constructor
      · intro hx
        refine ⟨?_, ?_⟩
        · obtain ⟨t, ht, hts, hne⟩ := (hmem s0).mp (by simp)
          exact ⟨t, ht, by rw [hts]; exact hne⟩
        · intro t ht hne
          have hmt : m t ∈ s0 :: rest := (hmem (m t)).mpr ⟨t, ht, rfl, hne⟩
          rcases List.mem_cons.mp hmt with heq | hmem'
          · rw [heq]; exact hx.1
          · exact hx.2 (m t) hmem'
      · rintro ⟨-, hall⟩
        have hin : ∀ s ∈ s0 :: rest, x ∈ s := by
          intro s hs
          obtain ⟨t, ht, hts, hne⟩ := (hmem s).mp hs
          rw [← hts]
          exact hall t ht (by rw [hts]; exact hne)
        exact ⟨hin s0 (by simp), fun s hs => hin s (List.mem_cons_of_mem _ hs)⟩

/-! ### Lexicographic order and ordered-insert lemmas -/

lemma lexLt_trans : ∀ a b c : Str, lexLt a b = true → lexLt b c = true → lexLt a c = true
  | [], [], _, h1, _ => by simp [lexLt] at h1
  | [], _ :: _, [], _, h2 => by simp [lexLt] at h2
  | [], _ :: _, _ :: _, _, _ => by simp [lexLt]
  | _ :: _, [], _, h1, _ => by simp [lexLt] at h1
  | _ :: _, _ :: _, [], _, h2 => by simp [lexLt] at h2
  | a :: as, b :: bs, c :: cs, h1, h2 => by
    simp only [lexLt, Bool.or_eq_true, Bool.and_eq_true, decide_eq_true_eq] at h1 h2 ⊢
    rcases h1 with h1 | ⟨rfl, h1⟩
    · rcases h2 with h2 | ⟨rfl, h2⟩
      · exact Or.inl (lt_trans h1 h2)
      · exact Or.inl h1
    · rcases h2 with h2 | ⟨rfl, h2⟩
      · exact Or.inl h2
      · exact Or.inr ⟨rfl, lexLt_trans as bs cs h1 h2⟩

lemma lexLt_conn : ∀ a b : Str, a ≠ b → lexLt a b = false → lexLt b a = true
  | [], [], h, _ => absurd rfl h
  | [], _ :: _, _, h2 => by simp [lexLt] at h2
  | _ :: _, [], _, _ => by simp [lexLt]
  | a :: as, b :: bs, hne, h2 => by
    simp only [lexLt, Bool.or_eq_false_iff, Bool.and_eq_false_iff,
      decide_eq_false_iff_not, decide_eq_true_eq] at h2
    simp only [lexLt, Bool.or_eq_true, Bool.and_eq_true, decide_eq_true_eq]
    by_cases hab : a = b
    · subst hab
      have htail : lexLt as bs = false := by
        rcases h2.2 with h | h
        · exact absurd rfl h
        · exact h
      have hne' : as ≠ bs := fun h => hne (by rw [h])
      exact Or.inr ⟨rfl, lexLt_conn as bs hne' htail⟩
    · rcases lt_trichotomy a b with h | h | h
      · exact absurd h h2.1
      · exact absurd h hab
      · exact Or.inl h

lemma isPrefixOf_not_lt : ∀ p k : Str, p.isPrefixOf k = true → lexLt k p = false
  | [], [], _ => by simp [lexLt]
  | [], _ :: _, _ => by simp [lexLt]
  | _ :: _, [], h => by simp [List.isPrefixOf] at h
  | a :: as, b :: bs, h => by
    simp only [List.isPrefixOf, Bool.and_eq_true, beq_iff_eq] at h
    obtain ⟨rfl, h2⟩ := h
    simp [lexLt, isPrefixOf_not_lt as bs h2, lt_irrefl]

lemma btInsert_mem {k : Str} {id : Nat} :
    ∀ (t : NameBTree) (e : Str × List Nat), e ∈ btInsert k id t →
      e = (k, [id]) ∨ (∃ v, (k, v) ∈ t ∧ e = (k, v ++ [id])) ∨ e ∈ t
  | [], e, h => by
    simp only [btInsert, List.mem_singleton] at h
    exact Or.inl h
  | (k2, v) :: rest, e, h => by
    simp only [btInsert] at h
    by_cases hk : k = k2
    · rw [if_pos hk] at h
      rcases List.mem_cons.mp h with rfl | h
      · subst hk
        exact Or.inr (Or.inl ⟨v, List.mem_cons_self _ _, rfl⟩)
      · exact Or.inr (Or.inr (List.mem_cons_of_mem _ h))
    · rw [if_neg hk] at h
      by_cases hlt : lexLt k k2 = true
      · rw [if_pos hlt] at h
        rcases List.mem_cons.mp h with rfl | h
        · exact Or.inl rfl
        · exact Or.inr (Or.inr h)
      · rw [if_neg hlt] at h
        rcases List.mem_cons.mp h with rfl | h
        · exact Or.inr (Or.inr (List.mem_cons_self _ _))
        · rcases btInsert_mem rest e h with h1 | ⟨w, hw, he⟩ | h2
          · exact Or.inl h1
          · exact Or.inr (Or.inl ⟨w, List.mem_cons_of_mem _ hw, he⟩)
          · exact Or.inr (Or.inr (List.mem_cons_of_mem _ h2))

lemma btInsert_sorted {k : Str} {id : Nat} :
    ∀ t : NameBTree, t.Pairwise (fun e f => lexLt e.1 f.1 = true) →
      (btInsert k id t).Pairwise (fun e f => lexLt e.1 f.1 = true)
  | [], _ => by simp [btInsert]
  | (k2, v) :: rest, hp => by
    rw [List.pairwise_cons] at hp
    obtain ⟨hhead, htail⟩ := hp
    simp only [btInsert]
    by_cases hk : k = k2
    · rw [if_pos hk]
      exact List.pairwise_cons.mpr ⟨hhead, htail⟩
    · rw [if_neg hk]
      by_cases hlt : lexLt k k2 = true
      · rw [if_pos hlt]
        refine List.pairwise_cons.mpr ⟨?_, List.pairwise_cons.mpr ⟨hhead, htail⟩⟩
        intro f hf
        rcases List.mem_cons.mp hf with rfl | hf
        · exact hlt
        · exact lexLt_trans _ _ _ hlt (hhead f hf)
      · rw [if_neg hlt]
        have hk2k : lexLt k2 k = true :=
          lexLt_conn k k2 hk ((Bool.not_eq_true _).mp hlt)
        refine List.pairwise_cons.mpr ⟨?_, btInsert_sorted rest htail⟩
        intro f hf
        rcases btInsert_mem rest f hf with rfl | ⟨w, hw, rfl⟩ | h2
        · exact hk2k
        · exact hk2k
        · exact hhead f h2

/-! ### Catalog state lemmas and invariant preservation -/

lemma add_product_products (c : Catalog) (p : Product) :
    (c.add_product p).products =
      Function.update c.products c.next_id (some { p with id := c.next_id }) := rfl

lemma add_product_next (c : Catalog) (p : Product) :
    (c.add_product p).next_id = c.next_id + 1 := rfl

lemma add_product_hash (c : Catalog) (p : Product) :
    (c.add_product p).hash_index =
      c.hash_index.index_product { p with id := c.next_id } := rfl

lemma add_product_tree (c : Catalog) (p : Product) :
    (c.add_product p).name_tree = btInsert (lowerStr p.name) c.next_id c.name_tree := rfl

lemma add_product_graph (c : Catalog) (p : Product) :
    (c.add_product p).rec_graph = c.rec_graph := rfl

lemma products_keep {c : Catalog} {j : Nat} (p : Product) (h : j ≠ c.next_id) :
    (c.add_product p).products j = c.products j := by
  rw [add_product_products, Function.update_noteq h]

lemma products_new (c : Catalog) (p : Product) :
    (c.add_product p).products c.next_id = some { p with id := c.next_id } := by
  rw [add_product_products, Function.update_same]

lemma inv_new : Inv Catalog.new := by
  refine ⟨le_refl 1, ?_, ?_, ?_, ?_, ?_, ?_⟩
  · intro i p h
    simp [Catalog.new] at h
  · intro t i h
    simp [Catalog.new] at h
  · intro i p h
    simp [Catalog.new] at h
  · simp [Catalog.new]
  · intro e he
    simp [Catalog.new] at he
  · intro e he
    simp [Catalog.new] at he

lemma inv_add {c : Catalog} (hI : Inv c) (p : Product) : Inv (c.add_product p) := by
  have hBound : ∀ j q, c.products j = some q → j < c.next_id :=
    fun j q h => (hI.prod_id j q h).2.2
  refine ⟨?_, ?_, ?_, ?_, ?_, ?_, ?_⟩
  · rw [add_product_next]
    omega
  · intro i q h
    rw [add_product_next]
    by_cases hin : i = c.next_id
    · subst hin
      rw [products_new] at h
      have hq : { p with id := c.next_id } = q := Option.some.inj h
      refine ⟨by rw [← hq], hI.next_pos, by omega⟩
    · rw [products_keep p hin] at h
      have h3 := hI.prod_id i q h
      exact ⟨h3.1, h3.2.1, by omega⟩
  · intro t i h
    rw [add_product_hash] at h
    rcases mem_index_product.mp h with hOld | ⟨hieq, htok⟩
    · obtain ⟨q, hq, htq⟩ := hI.hash_sound t i hOld
      have hne : i ≠ c.next_id := by
        have := hBound i q hq
        omega
      exact ⟨q, by rw [products_keep p hne]; exact hq, htq⟩
    · rw [hieq]
      exact ⟨{ p with id := c.next_id }, products_new c p, htok⟩
  · intro i q h t htok
    by_cases hin : i = c.next_id
    · subst hin
      rw [products_new] at h
      have hq : { p with id := c.next_id } = q := Option.some.inj h
      rw [add_product_hash]
      exact mem_index_product.mpr (Or.inr ⟨rfl, by rw [hq]; exact htok⟩)
    · rw [products_keep p hin] at h
      rw [add_product_hash]
      exact mem_index_product.mpr (Or.inl (hI.hash_complete i q h t htok))
  · rw [add_product_tree]
    exact btInsert_sorted _ hI.tree_sorted
  · intro e he i hie
    rw [add_product_tree] at he
    rcases btInsert_mem _ e he with rfl | ⟨w, hw, rfl⟩ | hold
    · rw [List.mem_singleton.mp hie]
      exact ⟨{ p with id := c.next_id }, products_new c p, rfl⟩
    · rcases List.mem_append.mp hie with hiw | hsing
      · obtain ⟨q, hq, hname⟩ := hI.tree_sound _ hw i hiw
        have hne : i ≠ c.next_id := by
          have := hBound i q hq
          omega
        exact ⟨q, by rw [products_keep p hne]; exact hq, hname⟩
      · rw [List.mem_singleton.mp hsing]
        exact ⟨{ p with id := c.next_id }, products_new c p, rfl⟩
    · obtain ⟨q, hq, hname⟩ := hI.tree_sound e hold i hie
      have hne : i ≠ c.next_id := by
        have := hBound i q hq
        omega
      exact ⟨q, by rw [products_keep p hne]; exact hq, hname⟩
  · intro e he
    rw [add_product_tree] at he
    rcases btInsert_mem _ e he with rfl | ⟨w, hw, rfl⟩ | hold
    · simp
    · rw [List.pairwise_append]
      refine ⟨hI.tree_inc _ hw, by simp, ?_⟩
      intro a ha b hb
      rw [List.mem_singleton.mp hb]
      obtain ⟨q, hq, _⟩ := hI.tree_sound _ hw a ha
      exact hBound a q hq
    · exact hI.tree_inc e hold

lemma inv_edge {c : Catalog} (hI : Inv c) (a b : Nat) :
    Inv (c.add_recommendation_edge a b) :=
  ⟨hI.next_pos, hI.prod_id, hI.hash_sound, hI.hash_complete, hI.tree_sorted,
    hI.tree_sound, hI.tree_inc⟩

lemma reachable_inv {c : Catalog} (h : Reachable c) : Inv c := by
  induction h with
  | new => exact inv_new
  | add p h ih => exact inv_add ih p
  | edge a b h ih => exact inv_edge ih a b

/-! ### Prefix-scan lemmas -/

lemma addIds_append : ∀ (v out : List Nat) (limit : Nat),
    ∃ w, (addIds limit out v).1 = out ++ w ∧ w <+: v ∧
      ((addIds limit out v).2 = false → w = v)
  | [], out, limit => ⟨[], by simp [addIds], List.nil_prefix, fun _ => rfl⟩
  | id :: v, out, limit => by
    simp only [addIds]
    by_cases hl : limit ≤ (out ++ [id]).length
    · rw [if_pos hl]
      refine ⟨[id], rfl, ⟨v, rfl⟩, ?_⟩
      intro hf
      simp at hf
    · rw [if_neg hl]
      obtain ⟨w, h1, h2, h3⟩ := addIds_append v (out ++ [id]) limit
      refine ⟨id :: w, ?_, ?_, ?_⟩
      · rw [h1, List.append_assoc]
        rfl
      · obtain ⟨u, hu⟩ := h2
        exact ⟨u, by rw [List.cons_append, hu]⟩
      · intro hf
        rw [h3 hf]

lemma addIds_len : ∀ (v out : List Nat) (limit : Nat), out.length < limit →
    ((addIds limit out v).2 = true → (addIds limit out v).1.length = limit) ∧
      ((addIds limit out v).2 = false → (addIds limit out v).1.length < limit)
  | [], out, limit, h => by
    simp only [addIds]
    exact ⟨fun hf => absurd hf (by simp), fun _ => h⟩
  | id :: v, out, limit, h => by
    simp only [addIds]
    by_cases hl : limit ≤ (out ++ [id]).length
    · rw [if_pos hl]
      have hlen : (out ++ [id]).length = limit := by
        simp only [List.length_append, List.length_singleton] at hl ⊢
        omega
      exact ⟨fun _ => hlen, fun hf => absurd hf (by simp)⟩
    · rw [if_neg hl]
      exact addIds_len v (out ++ [id]) limit (Nat.lt_of_not_le hl)

lemma addIds_zero (v : List Nat) (limit : Nat) (h : limit = 0) :
    (addIds limit [] v).1.length ≤ 1 ∧
      ((addIds limit [] v).2 = false → (addIds limit [] v).1 = []) := by
  subst h
  cases v <;> simp [addIds]

lemma spLoop_append (lp : Str) (limit : Nat) :
    ∀ (entries : NameBTree) (out : List Nat),
      ∃ w, spLoop lp limit entries out = out ++ w ∧
        w <+: ((entries.filter (fun e => lp.isPrefixOf e.1)).map Prod.snd).flatten
  | [], out => ⟨[], by simp [spLoop], List.nil_prefix⟩
  | (k, v) :: rest, out => by
    simp only [spLoop]
    by_cases hpf : lp.isPrefixOf k = true
    · rw [if_pos hpf, List.filter_cons,
        if_pos (show List.isPrefixOf lp (k, v).1 = true from hpf), List.map_cons,
        List.flatten_cons]
      obtain ⟨w0, hw0, hw0p, hw0f⟩ := addIds_append v out limit
      by_cases hearly : (addIds limit out v).2 = true
      · rw [if_pos hearly]
        exact ⟨w0, hw0, hw0p.trans (List.prefix_append v _)⟩
      · rw [if_neg hearly]
        have hw0v : w0 = v := hw0f ((Bool.not_eq_true _).mp hearly)
        obtain ⟨w1, hw1, hw1p⟩ := spLoop_append lp limit rest (addIds limit out v).1
        refine ⟨v ++ w1, ?_, ?_⟩
        · rw [hw1, hw0, hw0v, List.append_assoc]
        · obtain ⟨u, hu⟩ := hw1p
          exact ⟨u, by rw [List.append_assoc, hu]⟩
    · rw [if_neg hpf]
      exact ⟨[], by simp, List.nil_prefix⟩

lemma spLoop_len (lp : Str) (limit : Nat) :
    ∀ (entries : NameBTree) (out : List Nat),
      out.length < limit ∨ (limit = 0 ∧ out = []) →
      (spLoop lp limit entries out).length ≤ max limit 1
  | [], out, h => by
    simp only [spLoop]
    rcases h with h | ⟨_, rfl⟩
    · exact le_trans (le_of_lt h) (le_max_left _ _)
    · simp
  | (k, v) :: rest, out, h => by
    simp only [spLoop]
    by_cases hpf : lp.isPrefixOf k = true
    · rw [if_pos hpf]
      rcases h with h | ⟨h0, rfl⟩
      · obtain ⟨h1, h2⟩ := addIds_len v out limit h
        by_cases hearly : (addIds limit out v).2 = true
        · rw [if_pos hearly, h1 hearly]
          exact le_max_left _ _
        · rw [if_neg hearly]
          exact spLoop_len lp limit rest _
            (Or.inl (h2 ((Bool.not_eq_true _).mp hearly)))
      · obtain ⟨hz1, hz2⟩ := addIds_zero v limit h0
        by_cases hearly : (addIds limit [] v).2 = true
        · rw [if_pos hearly]
          exact le_trans hz1 (le_max_right _ _)
        · rw [if_neg hearly]
          exact spLoop_len lp limit rest _
            (Or.inr ⟨h0, hz2 ((Bool.not_eq_true _).mp hearly)⟩)
    · rw [if_neg hpf]
      rcases h with h | ⟨_, rfl⟩
      · exact le_trans (le_of_lt h) (le_max_left _ _)
      · simp

lemma filter_range_collapse (t : NameBTree) (lp : Str) :
    (t.filter (fun e => !(lexLt e.1 lp))).filter (fun e => lp.isPrefixOf e.1) =
      t.filter (fun e => lp.isPrefixOf e.1) := by
  rw [List.filter_filter]
  apply List.filter_congr
  intro e _
  cases hpf : lp.isPrefixOf e.1 with
  | false => simp
  | true => simp [isPrefixOf_not_lt lp e.1 hpf]

lemma searchPfx_prefix_matched (t : NameBTree) (pfx : Str) (limit : Nat) :
    t.searchPfx pfx limit <+: t.matchedIds (lowerStr pfx) := by
  unfold NameBTree.searchPfx NameBTree.matchedIds
  obtain ⟨w, hw, hwp⟩ :=
    spLoop_append (lowerStr pfx) limit
      (t.filter fun e => !(lexLt e.1 (lowerStr pfx))) []
  rw [filter_range_collapse] at hwp
  simp only []
  rw [hw, List.nil_append]
  exact hwp

lemma searchPfx_len (t : NameBTree) (pfx : Str) (limit : Nat) :
    (t.searchPfx pfx limit).length ≤ max limit 1 := by
  unfold NameBTree.searchPfx
  apply spLoop_len
  rcases Nat.eq_zero_or_pos limit with h | h
  · exact Or.inr ⟨h, rfl⟩
  · exact Or.inl (by simpa using h)

lemma length_filterMap_all {α β : Type} (f : α → Option β) :
    ∀ l : List α, (∀ a ∈ l, ∃ b, f a = some b) → (l.filterMap f).length = l.length
  | [], _ => rfl
  | a :: l, h => by
    obtain ⟨b, hb⟩ := h a (by simp)
    rw [List.filterMap_cons, hb]
    simp only [List.length_cons]
    rw [length_filterMap_all f l (fun x hx => h x (by simp [hx]))]

/-! ### Ordered-match lemmas under the invariant -/

lemma matchedIds_sound {c : Catalog} (hI : Inv c) (lp : Str) :
    ∀ i ∈ c.name_tree.matchedIds lp,
      ∃ p, c.products i = some p ∧ lp.isPrefixOf (lowerStr p.name) = true := by
  intro i hi
  unfold NameBTree.matchedIds at hi
  obtain ⟨l, hl, hil⟩ := List.mem_flatten.mp hi
  obtain ⟨e, he, rfl⟩ := List.mem_map.mp hl
  have hef := List.mem_filter.mp he
  obtain ⟨p, hp, hname⟩ := hI.tree_sound e hef.1 i hil
  refine ⟨p, hp, ?_⟩
  rw [hname]
  simpa using hef.2

lemma matchedIds_pairwise {c : Catalog} (hI : Inv c) (lp : Str) :
    (c.name_tree.matchedIds lp).Pairwise
      (fun i j => ∀ p q, c.products i = some p → c.products j = some q →
        nameOrd p q) := by
  unfold NameBTree.matchedIds
  rw [List.pairwise_flatten]
  constructor
  · intro l hl
    obtain ⟨e, he, rfl⟩ := List.mem_map.mp hl
    have hef := List.mem_filter.mp he
    refine (hI.tree_inc e hef.1).imp_of_mem ?_
    intro a b ha hb hab p q hp hq
    obtain ⟨p', hp', hpname⟩ := hI.tree_sound e hef.1 a ha
    obtain ⟨q', hq', hqname⟩ := hI.tree_sound e hef.1 b hb
    rw [hp] at hp'
    rw [hq] at hq'
    obtain rfl := Option.some.inj hp'
    obtain rfl := Option.some.inj hq'
    right
    refine ⟨by rw [hpname, hqname], ?_⟩
    rw [(hI.prod_id a p hp).1, (hI.prod_id b q hq).1]
    exact hab
  · rw [List.pairwise_map]
    have hfil : (c.name_tree.filter (fun e => lp.isPrefixOf e.1)).Pairwise
        (fun e f => lexLt e.1 f.1 = true) :=
      hI.tree_sorted.sublist (List.filter_sublist _)
    refine hfil.imp_of_mem ?_
    intro e f he hf hef x hx y hy p q hp hq
    obtain ⟨p', hp', hpname⟩ :=
      hI.tree_sound e (List.mem_filter.mp he).1 x hx
    obtain ⟨q', hq', hqname⟩ :=
      hI.tree_sound f (List.mem_filter.mp hf).1 y hy
    rw [hp] at hp'
    rw [hq] at hq'
    obtain rfl := Option.some.inj hp'
    obtain rfl := Option.some.inj hq'
    left
    rw [hpname, hqname]
    exact hef

/-! ### Batch-insert lemmas -/

lemma addAll_next : ∀ (ps : List Product) (c : Catalog),
    (addAll ps c).next_id = c.next_id + ps.length
  | [], c => by simp [addAll]
  | p :: ps, c => by
    rw [show addAll (p :: ps) c = addAll ps (c.add_product p) from rfl,
      addAll_next ps, add_product_next]
    simp only [List.length_cons]
    omega

lemma addAll_keep : ∀ (ps : List Product) (c : Catalog) (j : Nat), j < c.next_id →
    (addAll ps c).products j = c.products j
  | [], _, _, _ => rfl
  | p :: ps, c, j, h => by
    rw [show addAll (p :: ps) c = addAll ps (c.add_product p) from rfl,
      addAll_keep ps (c.add_product p) j (by rw [add_product_next]; omega)]
    exact products_keep p (by omega)

lemma addAll_get : ∀ (ps : List Product) (c : Catalog) (k : Nat) (h : k < ps.length),
    (addAll ps c).products (c.next_id + k) =
      some { ps.get ⟨k, h⟩ with id := c.next_id + k }
  | [], _, k, h => by simp at h
  | p :: ps, c, 0, _ => by
    rw [show addAll (p :: ps) c = addAll ps (c.add_product p) from rfl,
      addAll_keep ps (c.add_product p) (c.next_id + 0) (by rw [add_product_next]; omega)]
    simpa using products_new c p
  | p :: ps, c, k + 1, h => by
    rw [show addAll (p :: ps) c = addAll ps (c.add_product p) from rfl]
    have h' : k < ps.length := by simpa using h
    have hrec := addAll_get ps (c.add_product p) k h'
    rw [add_product_next] at hrec
    have harith : c.next_id + (k + 1) = c.next_id + 1 + k := by omega
    rw [harith]
    exact hrec

/-! ### Recommendation-graph lemmas -/

lemma add_edge_mem {g : RecGraph} {a b : Nat} (h : a ≠ b) :
    b ∈ (g.add_edge a b) a ∧ a ∈ (g.add_edge a b) b := by
  simp only [RecGraph.add_edge]
  rw [if_neg h]
  constructor
  · rw [Function.update_noteq h, Function.update_same]
    exact mem_hsInsert.mpr (Or.inr rfl)
  · rw [Function.update_same]
    exact mem_hsInsert.mpr (Or.inr rfl)

lemma add_edge_self (g : RecGraph) (a : Nat) : g.add_edge a a = g := by
  simp [RecGraph.add_edge]

lemma recommend_scored (g : RecGraph) (i : Nat) :
    ∀ pr ∈ ((g i).map (fun nid => (nid, (g nid).length))).insertionSort degRel,
      pr.2 = (g pr.1).length := by
  intro pr hpr
  have hpr2 : pr ∈ (g i).map (fun nid => (nid, (g nid).length)) :=
    (List.perm_insertionSort degRel _).mem_iff.mp hpr
  obtain ⟨nid, _, rfl⟩ := List.mem_map.mp hpr2
  rfl

lemma map_fst_scored (g : RecGraph) (i : Nat) :
    ((g i).map (fun nid => (nid, (g nid).length))).map Prod.fst = g i := by
  simp [List.map_map, Function.comp_def]

lemma recommend_len (g : RecGraph) (i limit : Nat) :
    (g.recommend i limit).length ≤ limit := by
  simp only [RecGraph.recommend, List.length_take]
  exact min_le_left _ _

lemma recommend_subset {g : RecGraph} {i limit x : Nat}
    (hx : x ∈ g.recommend i limit) : x ∈ g i := by
  simp only [RecGraph.recommend] at hx
  have hx2 := (List.take_sublist _ _).subset hx
  rw [← map_fst_scored g i]
  exact ((List.perm_insertionSort degRel _).map Prod.fst).mem_iff.mp hx2

lemma recommend_pairwise (g : RecGraph) (i limit : Nat) :
    (g.recommend i limit).Pairwise (fun x y => (g y).length ≤ (g x).length) := by
  simp only [RecGraph.recommend]
  apply List.Pairwise.sublist (List.take_sublist _ _)
  rw [List.pairwise_map]
  have hs := List.sorted_insertionSort degRel
    ((g i).map (fun nid => (nid, (g nid).length)))
  refine hs.imp_of_mem ?_
  intro a b ha hb hab
  rw [← recommend_scored g i a ha, ← recommend_scored g i b hb]
  exact hab

lemma mem_recommend_of_le {g : RecGraph} {i limit x : Nat}
    (hx : x ∈ g i) (hlen : (g i).length ≤ limit) : x ∈ g.recommend i limit := by
  simp only [RecGraph.recommend]
  rw [List.take_of_length_le]
  · rw [← map_fst_scored g i] at hx
    exact ((List.perm_insertionSort degRel _).map Prod.fst).mem_iff.mpr hx
  · rw [List.length_map, (List.perm_insertionSort degRel _).length_eq,
      List.length_map]
    exact hlen

lemma recommend_nil {g : RecGraph} {i : Nat} (h : g i = []) (limit : Nat) :
    g.recommend i limit = [] := by
  simp [RecGraph.recommend, h]

/-! ### Token-search characterization under the invariant -/

lemma search_tokens_iff {c : Catalog} (hI : Inv c) (q : Str) (p : Product) :
    p ∈ c.search_tokens q ↔
      (∃ t ∈ tokenize q, c.hash_index t ≠ []) ∧
        c.products p.id = some p ∧
        ∀ t ∈ tokenize q, c.hash_index t ≠ [] → t ∈ tokensOf p := by
  unfold Catalog.search_tokens Catalog.searchTokenIds
  rw [List.mem_filterMap]
  constructor
  · rintro ⟨i, hi, hpi⟩
    rw [mem_search_tokens_and] at hi
    obtain ⟨⟨t0, ht0, hne0⟩, hall⟩ := hi
    have hpid : p.id = i := (hI.prod_id i p hpi).1
    refine ⟨⟨t0, ht0, hne0⟩, by rw [hpid]; exact hpi, ?_⟩
    intro t ht hne
    obtain ⟨p', hp', htok⟩ := hI.hash_sound t i (hall t ht hne)
    rw [hpi] at hp'
    obtain rfl := Option.some.inj hp'
    exact htok
  · rintro ⟨⟨t0, ht0, hne0⟩, hpp, hall⟩
    refine ⟨p.id, ?_, hpp⟩
    rw [mem_search_tokens_and]
    exact ⟨⟨t0, ht0, hne0⟩, fun t ht hne =>
      hI.hash_complete p.id p hpp t (hall t ht hne)⟩

/-! ### Claim theorems -/

/-- Claim C1, counterexample: the claim states that a query token with no
entry in the inverted index short-circuits the AND to an empty result.  In
the code, `filter_map(|t| self.index.get(t))` silently skips such tokens
instead: on the reachable catalog `catA` (one item, all fields "dell"), the
query "dell xyz" contains the token "xyz", which has no index entry and is
not among the item's tokens, yet the search returns the item. -/
theorem C1_counterexample :
    str "xyz" ∈ tokenize (str "dell xyz") ∧
      catA.hash_index (str "xyz") = [] ∧
      str "xyz" ∉ tokensOf prodA1 ∧
      catA.search_tokens (str "dell xyz") = [prodA1] ∧
      Reachable catA :=
  ⟨by decide, by decide, by decide, by decide, Reachable.add prodA Reachable.new⟩

/-- Claim C1, amended: on every reachable catalog state, `search_tokens`
returns exactly the items whose tokenized name/brand/category fields contain
every token of `tokenize(query)` that has an entry in the inverted index;
query tokens with no entry are skipped rather than short-circuiting, and the
result is empty when no query token has an entry (in particular for a
tokenless query). -/
theorem C1_theorem (c : Catalog) (q : Str) (p : Product) (h : Reachable c) :
    p ∈ c.search_tokens q ↔
      (∃ t ∈ tokenize q, c.hash_index t ≠ []) ∧
        c.products p.id = some p ∧
        ∀ t ∈ tokenize q, c.hash_index t ≠ [] → t ∈ tokensOf p :=
  search_tokens_iff (reachable_inv h) q p

/-- Claim C1, witness: the amended characterization instantiated on the
reachable catalog `catA` with query "dell". -/
theorem C1_witness : prodA1 ∈ catA.search_tokens (str "dell") :=
  (C1_theorem catA (str "dell") prodA1
    (Reachable.add prodA Reachable.new)).mpr (by decide)

/-- Claim C2, counterexample: the claim states that `limit = 0` yields an
empty result regardless of the catalog's contents.  In the code the limit
check `out.len() >= limit` runs only after a push, so on the reachable
catalog `catA` (one item named "dell") the search with empty search string
and limit 0 returns one item, not zero. -/
theorem C2_counterexample :
    catA.searchPfxOrdered (str "") 0 = [prodA1] ∧
      (catA.searchPfxOrdered (str "") 0).length = 1 ∧
      Reachable catA :=
  ⟨by decide, by decide, Reachable.add prodA Reachable.new⟩

/-- Claim C2, amended: `search_prefix` returns at most `max limit 1` items —
at most `limit` when `limit ≥ 1`, but up to one item when `limit = 0`,
because the limit check runs only after the first push; on the empty catalog
the result is empty for every search string and limit. -/
theorem C2_theorem (c : Catalog) (pfx : Str) (limit : Nat) :
    (c.searchPfxOrdered pfx limit).length ≤ max limit 1 ∧
      Catalog.new.searchPfxOrdered pfx limit = [] := by
  constructor
  · exact le_trans (List.length_filterMap_le _ _) (searchPfx_len c.name_tree pfx limit)
  · rfl

/-- Claim C3, counterexample: the claim states that `add_item` returns the
assigned id.  The Rust function `fn add_product(&mut self, mut p: Product)`
returns `()`: its return value is the same unit value on two successive
calls whose assigned ids differ (1 and then 2), so the return value cannot
be the assigned id. -/
theorem C3_counterexample :
    (Catalog.new.add_product_ret prodA).2 = (catA.add_product_ret prodB).2 ∧
      catA.products 1 = some prodA1 ∧
      (catA.add_product prodB).products 2 = some prodB2 ∧
      (1 : Nat) ≠ 2 :=
  ⟨rfl, by decide, by decide, by decide⟩

/-- Claim C3, amended: `add_product` stores the new record under the id
`next_id`, which is at least 1 on every reachable state, and overwrites any
caller-supplied id with it; the function itself returns no value (unit)
rather than the assigned id. -/
theorem C3_theorem (c : Catalog) (p : Product) (h : Reachable c) :
    1 ≤ c.next_id ∧
      (c.add_product p).products c.next_id = some { p with id := c.next_id } ∧
      (c.add_product_ret p).2 = () :=
  ⟨(reachable_inv h).next_pos, products_new c p, rfl⟩

/-- Claim C3, witness: the amended statement instantiated on the fresh
catalog and the sample candidate `prodA` (caller-supplied id 37). -/
theorem C3_witness :
    1 ≤ Catalog.new.next_id ∧
      (Catalog.new.add_product prodA).products Catalog.new.next_id =
        some { prodA with id := Catalog.new.next_id } ∧
      (Catalog.new.add_product_ret prodA).2 = () :=
  C3_theorem Catalog.new prodA Reachable.new

/-- Claim C4 (confirmed): on every reachable catalog state, the ordered name
search returns only items whose normalized (lower-cased) name starts with
the normalized search string, ordered by ascending lexicographic name key
and, for items sharing a name, by insertion order (equivalently ascending
id, as ids are assigned in insertion order); moreover the returned ids form
an initial segment of the canonical ordered match list of the name tree. -/
theorem C4_theorem (c : Catalog) (pfx : Str) (limit : Nat) (h : Reachable c) :
    (∀ p ∈ c.searchPfxOrdered pfx limit,
      (lowerStr pfx).isPrefixOf (lowerStr p.name) = true) ∧
      (c.searchPfxOrdered pfx limit).Pairwise nameOrd ∧
      c.searchPfxIds pfx limit <+: c.name_tree.matchedIds (lowerStr pfx) := by
  have hI := reachable_inv h
  have hpre : c.searchPfxIds pfx limit <+: c.name_tree.matchedIds (lowerStr pfx) :=
    searchPfx_prefix_matched c.name_tree pfx limit
  refine ⟨?_, ?_, hpre⟩
  · intro p hp
    obtain ⟨i, hi, hpi⟩ := List.mem_filterMap.mp hp
    have him : i ∈ c.name_tree.matchedIds (lowerStr pfx) := hpre.sublist.subset hi
    obtain ⟨p', hp', hmatch⟩ := matchedIds_sound hI (lowerStr pfx) i him
    rw [hpi] at hp'
    obtain rfl := Option.some.inj hp'
    exact hmatch
  · unfold Catalog.searchPfxOrdered
    rw [List.pairwise_filterMap]
    have hpw := (matchedIds_pairwise hI (lowerStr pfx)).sublist hpre.sublist
    refine hpw.imp ?_
    intro i j hij p hp q hq
    exact hij p q (Option.mem_def.mp hp) (Option.mem_def.mp hq)

/-- Claim C4, witness: the ordering guarantees instantiated on the reachable
two-item catalog `catAB` with the empty search string. -/
theorem C4_witness :
    (∀ p ∈ catAB.searchPfxOrdered (str "") 10,
      (lowerStr (str "")).isPrefixOf (lowerStr p.name) = true) ∧
      (catAB.searchPfxOrdered (str "") 10).Pairwise nameOrd ∧
      catAB.searchPfxIds (str "") 10 <+:
        catAB.name_tree.matchedIds (lowerStr (str "")) :=
  C4_theorem catAB (str "") 10
    (Reachable.add prodB (Reachable.add prodA Reachable.new))

/-- Claim C5 (confirmed): for every graph state, id and limit, `recommend`
returns at most `limit` ids, each a neighbor of the queried id, sorted
descending by degree: whenever x precedes y in the result, the neighbor-set
size of x is at least that of y — so a strictly better-connected neighbor
always ranks first. -/
theorem C5_theorem (g : RecGraph) (i limit : Nat) :
    (g.recommend i limit).length ≤ limit ∧
      (∀ x ∈ g.recommend i limit, x ∈ g i) ∧
      (g.recommend i limit).Pairwise (fun x y => (g y).length ≤ (g x).length) :=
  ⟨recommend_len g i limit, fun _ hx => recommend_subset hx,
    recommend_pairwise g i limit⟩

/-- Claim C6 (confirmed): adding any batch of candidate products to a fresh
catalog assigns the successive ids 1, 2, 3, … in call order — afterwards
`next_id` equals the batch length plus one, and the k-th candidate is stored
under id k+1 with its caller-supplied id overwritten by k+1. -/
theorem C6_theorem (ps : List Product) :
    (addAll ps Catalog.new).next_id = ps.length + 1 ∧
      ∀ k (h : k < ps.length),
        (addAll ps Catalog.new).products (k + 1) =
          some { ps.get ⟨k, h⟩ with id := k + 1 } := by
  constructor
  · rw [addAll_next]
    show 1 + ps.length = ps.length + 1
    omega
  · intro k h
    have hrec := addAll_get ps Catalog.new k h
    have h1 : Catalog.new.next_id = 1 := rfl
    rw [h1, Nat.add_comm 1 k] at hrec
    exact hrec

/-- Claim C6, witness: the id-assignment statement instantiated on the batch
`[prodA, prodB]` (caller-supplied ids 37 and 99, stored as 1 and 2). -/
theorem C6_witness :
    (addAll [prodA, prodB] Catalog.new).next_id = 3 ∧
      (addAll [prodA, prodB] Catalog.new).products 1 = some prodA1 ∧
      (addAll [prodA, prodB] Catalog.new).products 2 = some prodB2 := by
  have h := C6_theorem [prodA, prodB]
  exact ⟨h.1, h.2 0 (by decide), h.2 1 (by decide)⟩

/-- Claim C7 (confirmed): for distinct ids a ≠ b, `add_edge a b` makes the
relation symmetric — b joins a's neighbor set and a joins b's — and each
endpoint appears in the other's `recommend` output whenever the limit is at
least the neighbor count; for a = b the call is a no-op leaving the graph
unchanged. -/
theorem C7_theorem (g : RecGraph) (a b : Nat) :
    (a ≠ b →
      b ∈ (g.add_edge a b) a ∧ a ∈ (g.add_edge a b) b ∧
        (∀ L, ((g.add_edge a b) a).length ≤ L →
          b ∈ (g.add_edge a b).recommend a L) ∧
        (∀ L, ((g.add_edge a b) b).length ≤ L →
          a ∈ (g.add_edge a b).recommend b L)) ∧
      g.add_edge a a = g := by
  refine ⟨?_, add_edge_self g a⟩
  intro h
  obtain ⟨h1, h2⟩ := add_edge_mem (g := g) h
  exact ⟨h1, h2, fun L hL => mem_recommend_of_le h1 hL,
    fun L hL => mem_recommend_of_le h2 hL⟩

/-- Claim C7, witness: symmetry and mutual recommendability instantiated on
the empty graph with the edge (1, 2) and limit 5. -/
theorem C7_witness :
    2 ∈ (emptyGraph.add_edge 1 2) 1 ∧ 1 ∈ (emptyGraph.add_edge 1 2) 2 ∧
      2 ∈ (emptyGraph.add_edge 1 2).recommend 1 5 ∧
      1 ∈ (emptyGraph.add_edge 1 2).recommend 2 5 := by
  have h := (C7_theorem emptyGraph 1 2).1 (by decide)
  exact ⟨h.1, h.2.1, h.2.2.1 5 (by decide), h.2.2.2 5 (by decide)⟩

/-- Claim C8 (confirmed): for every id with no recorded relations — in
particular ids never added to the catalog — and every limit, `recommend`
returns the empty sequence, both at the graph level and after resolving ids
through the catalog. -/
theorem C8_theorem (c : Catalog) (i limit : Nat) (h : c.rec_graph i = []) :
    c.rec_graph.recommend i limit = [] ∧ c.recommend_for i limit = [] := by
  have h1 := recommend_nil h limit
  refine ⟨h1, ?_⟩
  unfold Catalog.recommend_for
  rw [h1]
  rfl

/-- Claim C8, witness: the empty-recommendation statement instantiated on
the reachable catalog `catA` at id 42, which was never added. -/
theorem C8_witness :
    catA.rec_graph.recommend 42 7 = [] ∧ catA.recommend_for 42 7 = [] :=
  C8_theorem catA 42 7 (by decide)

/-- Claim C9 (confirmed): for every input string, `tokenize` totally
computes the maximal word-character runs of the lower-cased input, in
left-to-right order with duplicates preserved — that is, it lower-cases,
splits on maximal runs of non-word characters and discards the empty
fragments — and every returned token is nonempty and consists of word
characters only. -/
theorem C9_theorem (s : Str) :
    tokenize s = wordRuns (lowerStr s) ∧
      ∀ t ∈ tokenize s, t ≠ [] ∧ ∀ ch ∈ t, isWordChar ch = true := by
  refine ⟨tokenize_eq_wordRuns s, ?_⟩
  intro t ht
  rw [tokenize_eq_wordRuns] at ht
  exact wordRuns_wf (lowerStr s) t ht

/-- Claim C10 (confirmed): on every reachable catalog state, every id stored
in the inverted token index or in the ordered name index resolves in the
product store, so the defensive id drop of `search_tokens` and of the
ordered name search never fires (their outputs have exactly as many records
as ids); the recommendation graph, by contrast, may hold ids absent from the
store, as witnessed by a reachable state with a dangling edge. -/
theorem C10_theorem :
    (∀ c : Catalog, Reachable c →
      (∀ t i, i ∈ c.hash_index t → ∃ p, c.products i = some p) ∧
        (∀ e ∈ c.name_tree, ∀ i ∈ e.2, ∃ p, c.products i = some p) ∧
        (∀ q, (c.search_tokens q).length = (c.searchTokenIds q).length) ∧
        (∀ pfx limit,
          (c.searchPfxOrdered pfx limit).length =
            (c.searchPfxIds pfx limit).length)) ∧
      ∃ c : Catalog, Reachable c ∧ ∃ a b, b ∈ c.rec_graph a ∧ c.products b = none := by
  constructor
  · intro c hR
    have hI := reachable_inv hR
    refine ⟨?_, ?_, ?_, ?_⟩
    · intro t i hi
      obtain ⟨p, hp, _⟩ := hI.hash_sound t i hi
      exact ⟨p, hp⟩
    · intro e he i hi
      obtain ⟨p, hp, _⟩ := hI.tree_sound e he i hi
      exact ⟨p, hp⟩
    · intro q
      apply length_filterMap_all
      intro i hi
      unfold Catalog.searchTokenIds at hi
      rw [mem_search_tokens_and] at hi
      obtain ⟨⟨t0, ht0, hne0⟩, hall⟩ := hi
      obtain ⟨p, hp, _⟩ := hI.hash_sound t0 i (hall t0 ht0 hne0)
      exact ⟨p, hp⟩
    · intro pfx limit
      apply length_filterMap_all
      intro i hi
      have him := (searchPfx_prefix_matched c.name_tree pfx limit).sublist.subset hi
      obtain ⟨p, hp, _⟩ := matchedIds_sound hI (lowerStr pfx) i him
      exact ⟨p, hp⟩
  · exact ⟨catEdge, Reachable.edge 5 7 (Reachable.add prodA Reachable.new),
      5, 7, by decide, by decide⟩

/-- Claim C10, witness: the invariant instantiated on the reachable catalog
`catA` — the id under token "dell" resolves, and the token search drops
nothing for the query "dell". -/
theorem C10_witness :
    (∃ p, catA.products 1 = some p) ∧
      (catA.search_tokens (str "dell")).length =
        (catA.searchTokenIds (str "dell")).length := by
  have h := C10_theorem.1 catA (Reachable.add prodA Reachable.new)
  exact ⟨h.1 (str "dell") 1 (by decide), h.2.2.1 (str "dell")⟩

end MegaStore
